import Mathlib

/-!
Verification of the `geeadvance` repository against its specification.

The core of the repository is a local raster metrics engine for classified rasters
(per-class area, patch count via 8-connected component labeling, approximate
edge length, Shannon diversity).  The cloud-side modules (`metrics.py`,
`datasets.py`) are thin wrappers and placeholders; those are embedded from the
source directly further below.
-/

set_option maxHeartbeats 1000000

namespace GeeAdvance

/-- Grid positions, written as a pair of row index and column index. -/
abbrev Pos := ℕ × ℕ

/-- Modelled from the spec: the input to the local raster metrics engine
`calculate_local_metrics` (the engine itself is absent from the source
snapshot; only its cloud-side placeholders are present).  A classified raster
is a 2-D grid of integer class labels, a scalar pixel linear resolution `res`
(meters), and an optional `nodata` sentinel. -/
structure Raster where
  grid : List (List Int)
  res : ℚ
  nodata : Option Int
deriving DecidableEq

/-- Modelled from the spec: a pixel value is valid when there is no `nodata`
sentinel declared or the value differs from it. -/
def validVal (nd : Option Int) (x : Int) : Bool :=
  match nd with
  | none => true
  | some v => x != v

/-- Number of rows of the raster grid. -/
def gridH (r : Raster) : ℕ := r.grid.length

/-- Number of columns of the raster grid, read off the first row. -/
def gridW (r : Raster) : ℕ := (r.grid.headD []).length

/-- Value of the grid at a position (0 outside the grid; the engine only
evaluates it at in-bounds positions). -/
def pix (g : List (List Int)) (p : Pos) : Int := (g.getD p.1 []).getD p.2 0

/-- All in-bounds positions of an `h × w` grid, in row-major order. -/
def posList (h w : ℕ) : List Pos :=
  (List.range h).flatMap (fun i => (List.range w).map (fun j => (i, j)))

/-- Modelled from the spec: the multiset of values at valid pixels,
in row-major order. -/
def valsOf (r : Raster) : List Int := r.grid.flatten.filter (validVal r.nodata)

/-- Number of valid pixels of the raster. -/
def validCount (r : Raster) : ℕ := (valsOf r).length

/-- Modelled from the spec: the sorted list of distinct class values present
among valid pixels (the `nodata` value is excluded by construction). -/
def classesOf (r : Raster) : List Int :=
  List.insertionSort (· ≤ ·) (valsOf r).dedup

/-- Membership test for the class mask of value `v`: the pixel is valid and
carries value `v`. -/
def isClassCell (r : Raster) (v : Int) (p : Pos) : Bool :=
  validVal r.nodata (pix r.grid p) && (pix r.grid p == v)

/-- Modelled from the spec: the list of mask cells of class `v`, in row-major
order. -/
def cells (r : Raster) (v : Int) : List Pos :=
  (posList (gridH r) (gridW r)).filter (isClassCell r v)

/-- Closeness of two row or column indices: they differ by at most one. -/
def near (a b : ℕ) : Bool := (a == b) || (a + 1 == b) || (b + 1 == a)

/-- Adjacency of two distinct grid positions under 8-connectivity: both coordinates
differ by at most one (diagonal neighbors count as adjacent). -/
def adj8 (p q : Pos) : Bool := near p.1 q.1 && near p.2 q.2 && !(p == q)

/-- The four edge-sharing neighbor candidates of a position (clipped at the
upper-left border). -/
def nbr4 (p : Pos) : List Pos :=
  [(p.1 + 1, p.2), (p.1, p.2 + 1)] ++
    (if 0 < p.1 then [(p.1 - 1, p.2)] else []) ++
    (if 0 < p.2 then [(p.1, p.2 - 1)] else [])

/-- Modelled from the spec: a boundary cell of class `v` is a valid non-class
pixel covered by the one-pixel 4-connectivity dilation of the class mask,
i.e. a valid pixel, not of class `v`, with some in-bounds 4-neighbor in the
class mask. -/
def isBoundaryCell (r : Raster) (v : Int) (p : Pos) : Bool :=
  validVal r.nodata (pix r.grid p) && !(pix r.grid p == v) &&
    (nbr4 p).any (fun q =>
      decide (q.1 < gridH r) && decide (q.2 < gridW r) && isClassCell r v q)

/-- Number of boundary cells of class `v`. -/
def boundaryCount (r : Raster) (v : Int) : ℕ :=
  ((posList (gridH r) (gridW r)).filter (isBoundaryCell r v)).length

/-- One sweep of minimum-label propagation: every index `k < labs.length`
receives the minimum of its own label and the labels of its `B`-neighbors. -/
def nbrFold (B : ℕ → ℕ → Bool) (labs : List ℕ) (k : ℕ) : ℕ :=
  (List.range labs.length).foldr
    (fun j a => if B k j then min (labs.getD j 0) a else a) (labs.getD k 0)

/-- The label list after one propagation sweep. -/
def stepLabels (B : ℕ → ℕ → Bool) (labs : List ℕ) : List ℕ :=
  (List.range labs.length).map (nbrFold B labs)

/-- Modelled from the spec: connected-component labeling by minimum-label
propagation.  Starting from the identity labeling of `n` vertices, `n` sweeps
suffice for every vertex to carry the least index of its component. -/
def propagate (B : ℕ → ℕ → Bool) (n : ℕ) : List ℕ :=
  (stepLabels B)^[n] (List.range n)

/-- Adjacency of two cells of a cell list, by index. -/
def cellAdj (cl : List Pos) (k j : ℕ) : Bool :=
  adj8 (cl.getD k (0, 0)) (cl.getD j (0, 0))

/-- Number of connected components of a cell list under 8-connectivity,
as computed by label propagation. -/
def countComps (cl : List Pos) : ℕ :=
  ((propagate (cellAdj cl) cl.length).dedup).length

/-- Patch count of class `v`: components of the class mask. -/
def npOf (r : Raster) (v : Int) : ℕ := countComps (cells r v)

/-- Modelled from the spec: round a rational to 4 decimal places. -/
def round4 (q : ℚ) : ℚ := (round (q * 10000) : ℤ) / 10000

/-- Area of one pixel in hectares: `res * res / 10000`. -/
def pixelAreaHa (r : Raster) : ℚ := r.res * r.res / 10000

/-- Total valid landscape area in hectares. -/
def totalAreaHa (r : Raster) : ℚ := (validCount r : ℚ) * pixelAreaHa r

/-- Modelled from the spec: one output record per class — class id, class
area (ha), percent of landscape, patch count, mean patch area (ha), total
edge length (m, approximate), edge density (m/ha). -/
structure ClassMetricRow where
  cls : Int
  ca : ℚ
  pland : ℚ
  np : ℕ
  area_mn : ℚ
  te : ℚ
  ed : ℚ
deriving DecidableEq

/-- Successful engine output: the class table and the landscape
richness (the Shannon index is exposed separately, see `localShdi`). -/
structure MetricsResult where
  rows : List ClassMetricRow
  richness : ℕ
deriving DecidableEq

/-- Modelled from the spec: the output row of the engine for one class.
All floating outputs are rounded to 4 decimal places; the patch count is an
integer.  The mean patch area is total class area over patch count. -/
def mkRow (r : Raster) (v : Int) : ClassMetricRow :=
  let caE : ℚ := ((cells r v).length : ℚ) * pixelAreaHa r
  let teE : ℚ := (boundaryCount r v : ℚ) * r.res
  { cls := v
    ca := round4 caE
    pland := round4 (100 * caE / totalAreaHa r)
    np := npOf r v
    area_mn := round4 (caE / (npOf r v : ℚ))
    te := round4 teE
    ed := round4 (teE / totalAreaHa r) }

/-- Engine class table: one row per distinct valid class value,
ascending by class id. -/
def rowsOf (r : Raster) : List ClassMetricRow := (classesOf r).map (mkRow r)

/-- A grid is rectangular when every row has the width of the first row. -/
def Rectangular (g : List (List Int)) : Prop :=
  ∀ row ∈ g, row.length = (g.headD []).length

instance : DecidablePred Rectangular := fun g =>
  inferInstanceAs (Decidable (∀ row ∈ g, row.length = (g.headD []).length))

/-- Modelled from the spec: the input contract of the engine — a 2-D
(rectangular) grid and a positive resolution. -/
def Wellformed (r : Raster) : Prop := Rectangular r.grid ∧ 0 < r.res

instance : DecidablePred Wellformed := fun r =>
  inferInstanceAs (Decidable (Rectangular r.grid ∧ 0 < r.res))

/-- The error message of the engine on malformed input. -/
def invalidInputMsg : String :=
  "InvalidInput: grid must be 2-D and resolution positive"

/-- Modelled from the spec: the local raster metrics engine
`calculate_local_metrics` (absent from the source snapshot).  Malformed
input (non-2-D grid or non-positive resolution) is rejected up front with a
`ValueError`-equivalent; otherwise the engine returns the per-class table,
sorted ascending by class id, together with the landscape richness.  A raster
with zero valid pixels yields an empty table and richness 0. -/
def calculate_local_metrics (r : Raster) : Except String MetricsResult :=
  if Wellformed r then
    .ok { rows := rowsOf r, richness := (classesOf r).length }
  else
    .error invalidInputMsg

/-- Modelled from the spec: Shannon diversity index over the per-class
`pland` values: `-Σ (pi * ln pi)` with `pi = pland / 100`, over classes with
positive `pland`. -/
noncomputable def shdiOfRows (rows : List ClassMetricRow) : ℝ :=
  -(((rows.map ClassMetricRow.pland).filter (fun p => decide (0 < p))).map
      (fun p => ((p : ℝ) / 100) * Real.log ((p : ℝ) / 100))).sum

/-- The landscape Shannon diversity exposed by the engine (0 when the input
is rejected). -/
noncomputable def localShdi (r : Raster) : ℝ :=
  match calculate_local_metrics r with
  | .ok res => shdiOfRows res.rows
  | .error _ => 0

/-! Correctness of minimum-label propagation.  We show that `countComps`
computes the number of connected components of the adjacency graph. -/

/-- Label of index `k` after `t` propagation sweeps over `n` vertices. -/
def labAt (B : ℕ → ℕ → Bool) (n t k : ℕ) : ℕ :=
  ((stepLabels B)^[t] (List.range n)).getD k 0

/-- The simple graph on `Fin n` induced by a Boolean adjacency, made
symmetric and loopless by construction; when `B` is itself symmetric and
irreflexive the edge relation is exactly `B`. -/
def graphOf (n : ℕ) (B : ℕ → ℕ → Bool) : SimpleGraph (Fin n) where
  Adj i j := i ≠ j ∧ B i.val j.val = true ∧ B j.val i.val = true
  symm := fun _ _ h => ⟨h.1.symm, h.2.2, h.2.1⟩
  loopless := fun _ h => h.1 rfl

/-- Final label of a vertex after the full run: the least index of its
connected component, as the subsequent lemmas show. -/
def finalLab (B : ℕ → ℕ → Bool) (n : ℕ) (k : Fin n) : ℕ := labAt B n n k.val

/-- The 8-connectivity graph on the cells of a class mask (vertices indexed by
position in the cell list). -/
def maskGraph (cl : List Pos) : SimpleGraph (Fin cl.length) :=
  graphOf cl.length (cellAdj cl)

/-- Specification-side patch count: the number of connected components of the
8-connectivity graph on the class mask. -/
noncomputable def npSpec (cl : List Pos) : ℕ :=
  Nat.card (maskGraph cl).ConnectedComponent

/-! Concrete rasters used below. -/

/-- The 4×4 concrete scenario of the spec: res 100 (pixel is 1 ha),
no nodata. -/
def sampleGrid4 : Raster :=
  ⟨[[1, 1, 0, 0], [1, 1, 0, 0], [2, 2, 0, 0], [2, 2, 0, 0]], 100, none⟩

/-- A raster whose pixel area (1/40000 ha) cannot be represented at 4 decimal
places, exposing the rounding of the output fields. -/
def halfResRaster : Raster := ⟨[[1]], 1 / 2, none⟩

/-- The diagonal-pair scenario: class 1 occupies positions (0,0) and (1,1)
only (touching diagonally); the rest is nodata. -/
def diagRaster : Raster :=
  ⟨[[1, 9, 9, 9], [9, 1, 9, 9], [9, 9, 9, 9], [9, 9, 9, 9]], 100, some 9⟩

end GeeAdvance

namespace Cloud

/-! Shallow embedding of the cloud-side functions of the source:
`diversity_metrics` and `area_metrics` from src/geeadvance/metrics.py and
`create_composite` from src/geeadvance/datasets.py.  Earth Engine objects are
opaque tokens; the one remote evaluation (`getInfo`) is an oracle argument. -/

/-- An opaque Earth Engine image handle. -/
structure EEImage where
  id : ℕ
deriving DecidableEq

/-- An opaque Earth Engine geometry handle. -/
structure EEGeometry where
  id : ℕ
deriving DecidableEq

/-- An opaque Earth Engine image collection handle. -/
structure ImageCollection where
  id : ℕ
deriving DecidableEq

/-- The server-side reduction request built by `diversity_metrics` (a
frequency histogram over the region); the source never uses its result. -/
structure EEReduction where
  imageId : ℕ
  geomId : ℕ
  scale : ℤ
deriving DecidableEq

/-- The server-side number built by `area_metrics`: the pixel-area sum over
the region divided by 10000. -/
structure EENumber where
  geomId : ℕ
  scale : ℤ
  divisor : ℚ
deriving DecidableEq

def frequencyHistogram (image : EEImage) (region : EEGeometry)
    (scale : ℤ) : EEReduction :=
  ⟨image.id, region.id, scale⟩

def totalAreaNumber (region : EEGeometry) (scale : ℤ) : EENumber :=
  ⟨region.id, scale, 10000⟩

/-- Embedding of `diversity_metrics` from src/geeadvance/metrics.py: builds the class
histogram request and returns the placeholder dictionary with every one of
the seven diversity metrics set to `None`. -/
def diversity_metrics (image : EEImage) (region : EEGeometry) (scale : ℤ) :
    List (String × Option ℚ) :=
  let _histogram := frequencyHistogram image region scale
  [("SHDI", none), ("SHEI", none), ("SIDI", none), ("SIEI", none),
    ("MSIDI", none), ("PR", none), ("PRD", none)]

/-- Embedding of `area_metrics` from src/geeadvance/metrics.py: evaluates the total area
remotely (the `getInfo` oracle) and returns `None` placeholders for CA,
PLAND and NP. -/
def area_metrics (getInfo : EENumber → ℚ) (image : EEImage)
    (region : EEGeometry) (scale : ℤ) : List (String × Option ℚ) :=
  let _image := image
  [("TA", some (getInfo (totalAreaNumber region scale))),
    ("CA", none), ("PLAND", none), ("NP", none)]

/-- The value of a composite expression: the reduction applied to the
collection, possibly clipped. -/
inductive EEComposite where
  | median (c : ImageCollection)
  | mean (c : ImageCollection)
  | maxOf (c : ImageCollection)
  | minOf (c : ImageCollection)
  | mosaic (c : ImageCollection)
  | clip (img : EEComposite) (region : EEGeometry)
deriving DecidableEq

/-- The five method strings accepted by `create_composite`. -/
def compositeMethods : List String := ["median", "mean", "max", "min", "mosaic"]

/-- Clip an image to a region when one is given (Python `if region:`). -/
def applyClip (region : Option EEGeometry) (img : EEComposite) : EEComposite :=
  match region with
  | some g => EEComposite.clip img g
  | none => img

/-- Embedding of `create_composite` from src/geeadvance/datasets.py: dispatches on the
method string, raises ValueError for an unknown method (before any clipping),
then clips to the region when one is given. -/
def create_composite (collection : ImageCollection) (method : String)
    (region : Option EEGeometry) : Except String EEComposite :=
  let base : Except String EEComposite :=
    if method = "median" then .ok (.median collection)
    else if method = "mean" then .ok (.mean collection)
    else if method = "max" then .ok (.maxOf collection)
    else if method = "min" then .ok (.minOf collection)
    else if method = "mosaic" then .ok (.mosaic collection)
    else .error ("Unknown method '" ++ method ++
      "'. Available: median, mean, max, min, mosaic")
  match base with
  | .ok c => .ok (applyClip region c)
  | .error e => .error e

end Cloud

namespace GeeAdvance

theorem length_stepLabels (B : ℕ → ℕ → Bool) (labs : List ℕ) :
    (stepLabels B labs).length = labs.length := by
  simp [stepLabels]

theorem length_iter (B : ℕ → ℕ → Bool) (n t : ℕ) :
    ((stepLabels B)^[t] (List.range n)).length = n := by
  induction t with
  | zero => simp
  | succ t ih => rw [Function.iterate_succ_apply', length_stepLabels, ih]

theorem labAt_zero (B : ℕ → ℕ → Bool) {n k : ℕ} (hk : k < n) :
    labAt B n 0 k = k := by
  simp only [labAt, Function.iterate_zero, id, List.getD_eq_getElem?_getD,
    List.getElem?_range hk, Option.getD_some]

theorem labAt_succ (B : ℕ → ℕ → Bool) {n : ℕ} (t : ℕ) {k : ℕ} (hk : k < n) :
    labAt B n (t + 1) k = nbrFold B ((stepLabels B)^[t] (List.range n)) k := by
  have hlen : ((stepLabels B)^[t + 1] (List.range n)).length = n := length_iter B n (t + 1)
  rw [labAt, Function.iterate_succ_apply']
  rw [Function.iterate_succ_apply'] at hlen
  rw [List.getD_eq_getElem _ 0 (by omega)]
  simp [stepLabels, length_iter]

theorem foldr_min_le_init (B : ℕ → ℕ → Bool) (labs : List ℕ) (k : ℕ)
    (l : List ℕ) (a : ℕ) :
    l.foldr (fun j b => if B k j then min (labs.getD j 0) b else b) a ≤ a := by
  induction l with
  | nil => exact le_refl a
  | cons hd tl ih =>
    simp only [List.foldr_cons]
    by_cases h : B k hd
    · simp only [h, if_true]
      exact le_trans (min_le_right _ _) ih
    · simp only [h, if_false]
      exact ih

theorem foldr_min_le_mem (B : ℕ → ℕ → Bool) (labs : List ℕ) (k : ℕ)
    (l : List ℕ) (a : ℕ) {j : ℕ} (hj : j ∈ l) (hB : B k j = true) :
    l.foldr (fun j b => if B k j then min (labs.getD j 0) b else b) a ≤ labs.getD j 0 := by
  induction l with
  | nil => cases hj
  | cons hd tl ih =>
    simp only [List.foldr_cons]
    rcases List.mem_cons.mp hj with h | h
    · subst h
      simp only [hB, if_true]
      exact min_le_left _ _
    · by_cases hB' : B k hd
      · simp only [hB', if_true]
        exact le_trans (min_le_right _ _) (ih h)
      · simp only [hB', if_false]
        exact ih h

theorem foldr_min_cases (B : ℕ → ℕ → Bool) (labs : List ℕ) (k : ℕ)
    (l : List ℕ) (a : ℕ) :
    l.foldr (fun j b => if B k j then min (labs.getD j 0) b else b) a = a ∨
      ∃ j ∈ l, B k j = true ∧
        l.foldr (fun j b => if B k j then min (labs.getD j 0) b else b) a = labs.getD j 0 := by
  induction l with
  | nil => exact Or.inl rfl
  | cons hd tl ih =>
    simp only [List.foldr_cons]
    by_cases hB : B k hd
    · simp only [hB, if_true]
      rcases le_total (labs.getD hd 0) (tl.foldr (fun j b => if B k j then min (labs.getD j 0) b else b) a) with h | h
      · exact Or.inr ⟨hd, List.mem_cons_self hd tl, hB, min_eq_left h⟩
      · rw [min_eq_right h]
        rcases ih with h' | ⟨j, hj, hBj, h'⟩
        · exact Or.inl h'
        · exact Or.inr ⟨j, List.mem_cons_of_mem hd hj, hBj, h'⟩
    · simp only [hB, if_false]
      rcases ih with h' | ⟨j, hj, hBj, h'⟩
      · exact Or.inl h'
      · exact Or.inr ⟨j, List.mem_cons_of_mem hd hj, hBj, h'⟩

theorem labAt_succ_le_self (B : ℕ → ℕ → Bool) {n : ℕ} (t : ℕ) {k : ℕ} (hk : k < n) :
    labAt B n (t + 1) k ≤ labAt B n t k := by
  rw [labAt_succ B t hk]
  unfold nbrFold
  rw [length_iter]
  exact foldr_min_le_init B _ k _ _

theorem labAt_le_self (B : ℕ → ℕ → Bool) {n : ℕ} (t : ℕ) {k : ℕ} (hk : k < n) :
    labAt B n t k ≤ k := by
  induction t with
  | zero => exact le_of_eq (labAt_zero B hk)
  | succ t ih => exact le_trans (labAt_succ_le_self B t hk) ih

theorem labAt_succ_le_nbr (B : ℕ → ℕ → Bool) {n : ℕ} (t : ℕ) {k j : ℕ}
    (hk : k < n) (hj : j < n) (hB : B k j = true) :
    labAt B n (t + 1) k ≤ labAt B n t j := by
  rw [labAt_succ B t hk]
  unfold nbrFold
  rw [length_iter]
  exact foldr_min_le_mem B _ k _ _ (List.mem_range.mpr hj) hB

theorem labAt_succ_cases (B : ℕ → ℕ → Bool) {n : ℕ} (t : ℕ) {k : ℕ} (hk : k < n) :
    labAt B n (t + 1) k = labAt B n t k ∨
      ∃ j < n, B k j = true ∧ labAt B n (t + 1) k = labAt B n t j := by
  rw [labAt_succ B t hk]
  unfold nbrFold
  rw [length_iter]
  rcases foldr_min_cases B ((stepLabels B)^[t] (List.range n)) k (List.range n) _ with h | ⟨j, hj, hBj, h⟩
  · exact Or.inl h
  · exact Or.inr ⟨j, List.mem_range.mp hj, hBj, h⟩

section PropagateCorrect

variable {n : ℕ} {B : ℕ → ℕ → Bool}

theorem labAt_le_of_walk (t : ℕ) (k j : Fin n)
    (w : (graphOf n B).Walk k j) (hw : w.length ≤ t) :
    labAt B n t k.val ≤ j.val := by
  induction t generalizing k j w with
  | zero =>
    have h0 : w.length = 0 := Nat.le_zero.mp hw
    have : k = j := SimpleGraph.Walk.eq_of_length_eq_zero h0
    subst this
    exact le_of_eq (labAt_zero B k.isLt)
  | succ t ih =>
    cases w with
    | nil => exact le_trans (labAt_le_self B (t + 1) k.isLt) (le_refl k.val)
    | cons h w' =>
      rename_i k₁
      have hlen : w'.length ≤ t := by
        simpa [SimpleGraph.Walk.length_cons] using hw
      exact le_trans (labAt_succ_le_nbr B t k.isLt k₁.isLt h.2.1) (ih k₁ j w' hlen)

theorem labAt_realized (hsym : ∀ i j, B i j = B j i)
    (hirr : ∀ i, B i i = false) (t : ℕ) (k : Fin n) :
    ∃ j : Fin n, (∃ w : (graphOf n B).Walk k j, w.length ≤ t) ∧
      labAt B n t k.val = j.val := by
  induction t generalizing k with
  | zero =>
    exact ⟨k, ⟨SimpleGraph.Walk.nil, by simp⟩, labAt_zero B k.isLt⟩
  | succ t ih =>
    rcases labAt_succ_cases B t k.isLt with h | ⟨j, hj, hBj, h⟩
    · rcases ih k with ⟨j, ⟨w, hw⟩, heq⟩
      exact ⟨j, ⟨w, le_trans hw (Nat.le_succ t)⟩, h.trans heq⟩
    · rcases ih ⟨j, hj⟩ with ⟨j₂, ⟨w, hw⟩, heq⟩
      have hne : k ≠ (⟨j, hj⟩ : Fin n) := by
        intro heqk
        have hBk : B k.val k.val = true := by
          rw [heqk] at hBj ⊢
          exact hBj
        rw [hirr] at hBk
        exact Bool.false_ne_true hBk
      have hadj : (graphOf n B).Adj k ⟨j, hj⟩ := by
        refine ⟨hne, hBj, ?_⟩
        rw [hsym]
        exact hBj
      refine ⟨j₂, ⟨SimpleGraph.Walk.cons hadj w, ?_⟩, h.trans heq⟩
      simpa [SimpleGraph.Walk.length_cons] using Nat.succ_le_succ hw

theorem finalLab_le_of_reachable {k j : Fin n}
    (h : (graphOf n B).Reachable k j) : finalLab B n k ≤ j.val := by
  obtain ⟨w⟩ := h
  have hp := w.toPath.2
  have hlt : w.toPath.1.length < Fintype.card (Fin n) := hp.length_lt
  rw [Fintype.card_fin] at hlt
  exact labAt_le_of_walk n k j w.toPath.1 (le_of_lt hlt)

theorem finalLab_eq_of_reachable (hsym : ∀ i j, B i j = B j i)
    (hirr : ∀ i, B i i = false) {k j : Fin n}
    (h : (graphOf n B).Reachable k j) : finalLab B n k = finalLab B n j := by
  have h1 : finalLab B n k ≤ finalLab B n j := by
    rcases labAt_realized hsym hirr n j with ⟨j₂, ⟨w, _⟩, heq⟩
    have heq' : finalLab B n j = j₂.val := heq
    rw [heq']
    exact finalLab_le_of_reachable (h.trans w.reachable)
  have h2 : finalLab B n j ≤ finalLab B n k := by
    rcases labAt_realized hsym hirr n k with ⟨k₂, ⟨w, _⟩, heq⟩
    have heq' : finalLab B n k = k₂.val := heq
    rw [heq']
    exact finalLab_le_of_reachable (h.symm.trans w.reachable)
  exact le_antisymm h1 h2

theorem reachable_of_finalLab_eq (hsym : ∀ i j, B i j = B j i)
    (hirr : ∀ i, B i i = false) {k j : Fin n}
    (h : finalLab B n k = finalLab B n j) :
    (graphOf n B).Reachable k j := by
  rcases labAt_realized hsym hirr n k with ⟨a, ⟨wa, _⟩, ha⟩
  rcases labAt_realized hsym hirr n j with ⟨b, ⟨wb, _⟩, hb⟩
  have hab : a = b := by
    apply Fin.val_injective
    rw [← ha, ← hb]
    exact h
  subst hab
  exact wa.reachable.trans wb.reachable.symm

theorem propagate_eq_ofFn :
    propagate B n = List.ofFn (finalLab B n) := by
  have hlen : (propagate B n).length = n := length_iter B n n
  apply List.ext_getElem
  · rw [hlen, List.length_ofFn]
  · intro i h1 h2
    have hi : i < n := by rw [hlen] at h1; exact h1
    rw [List.getElem_ofFn]
    have h3 : (propagate B n)[i] = (propagate B n).getD i 0 :=
      (List.getD_eq_getElem _ 0 h1).symm
    rw [h3]
    rfl

theorem countComps_core (hsym : ∀ i j, B i j = B j i)
    (hirr : ∀ i, B i i = false) :
    ((propagate B n).dedup).length =
      Nat.card (graphOf n B).ConnectedComponent := by
  classical
  letI : Fintype (graphOf n B).ConnectedComponent := Fintype.ofFinite _
  have hinj : Function.Injective
      (SimpleGraph.ConnectedComponent.lift (finalLab B n)
        (fun v w p _ => finalLab_eq_of_reachable hsym hirr p.reachable)) := by
    intro c d
    refine SimpleGraph.ConnectedComponent.ind₂ ?_ c d
    intro v w h
    simp only [SimpleGraph.ConnectedComponent.lift_mk] at h
    exact SimpleGraph.ConnectedComponent.sound (reachable_of_finalLab_eq hsym hirr h)
  rw [← List.card_toFinset, propagate_eq_ofFn]
  have h1 : (List.ofFn (finalLab B n)).toFinset = Finset.univ.image (finalLab B n) := by
    apply Finset.ext
    intro x
    simp only [List.mem_toFinset, List.mem_ofFn, Set.mem_range, Finset.mem_image,
      Finset.mem_univ, true_and]
  have h2 : Finset.univ.image (finalLab B n) =
      (Finset.univ.image (graphOf n B).connectedComponentMk).image
        (SimpleGraph.ConnectedComponent.lift (finalLab B n)
          (fun v w p _ => finalLab_eq_of_reachable hsym hirr p.reachable)) := by
    rw [Finset.image_image]
    rfl
  have hsurj : Function.Surjective (graphOf n B).connectedComponentMk :=
    fun c => Quot.exists_rep c
  rw [h1, h2, Finset.image_univ_of_surjective hsurj,
    Finset.card_image_of_injective _ hinj, Finset.card_univ, Nat.card_eq_fintype_card]

end PropagateCorrect

theorem near_symm (a b : ℕ) : near a b = near b a := by
  rw [Bool.eq_iff_iff]
  simp only [near, Bool.or_eq_true, beq_iff_eq]
  omega

theorem adj8_symm (p q : Pos) : adj8 p q = adj8 q p := by
  rw [Bool.eq_iff_iff]
  simp only [adj8, Bool.and_eq_true, Bool.not_eq_true', beq_eq_false_iff_ne, ne_eq]
  rw [near_symm p.1 q.1, near_symm p.2 q.2]
  constructor
  · rintro ⟨⟨h1, h2⟩, h3⟩
    exact ⟨⟨h1, h2⟩, fun h => h3 (h.symm)⟩
  · rintro ⟨⟨h1, h2⟩, h3⟩
    exact ⟨⟨h1, h2⟩, fun h => h3 (h.symm)⟩

theorem adj8_irrefl (p : Pos) : adj8 p p = false := by
  simp [adj8]

theorem cellAdj_symm (cl : List Pos) : ∀ i j, cellAdj cl i j = cellAdj cl j i := by
  intro i j
  exact adj8_symm _ _

theorem cellAdj_irrefl (cl : List Pos) : ∀ i, cellAdj cl i i = false := by
  intro i
  exact adj8_irrefl _

theorem countComps_eq_npSpec (cl : List Pos) : countComps cl = npSpec cl :=
  countComps_core (cellAdj_symm cl) (cellAdj_irrefl cl)

/-! Bridge lemmas between the row-major pixel enumeration, the flattened
value list, and the per-class cell lists. -/

theorem map_getD_range (row : List Int) :
    (List.range row.length).map (fun j => row.getD j 0) = row := by
  apply List.ext_getElem
  · simp
  · intro i h1 h2
    simp only [List.getElem_map, List.getElem_range]
    exact List.getD_eq_getElem row 0 h2

theorem map_pix_posList (g : List (List Int)) (w : ℕ)
    (hw : ∀ row ∈ g, row.length = w) :
    (posList g.length w).map (pix g) = g.flatten := by
  induction g with
  | nil => simp [posList]
  | cons row rest ih =>
    have hrow : row.length = w := hw row (List.mem_cons_self row rest)
    have hrest : ∀ q ∈ rest, q.length = w := fun q hq => hw q (List.mem_cons_of_mem row hq)
    have hstep : (posList rest.length w).map (pix rest) = rest.flatten := ih hrest
    simp only [List.length_cons, List.flatten_cons]
    rw [posList, List.range_succ_eq_map, List.flatMap_cons, List.flatMap_map,
      List.map_append]
    congr 1
    · rw [List.map_map]
      have h0 : (pix (row :: rest) ∘ fun j => ((0 : ℕ), j)) = fun j => row.getD j 0 := by
        funext j
        rfl
      rw [h0, ← hrow]
      exact map_getD_range row
    · rw [List.map_flatMap, ← hstep, posList, List.map_flatMap]
      apply congrArg (List.flatMap (List.range rest.length))
      funext i
      rw [List.map_map, List.map_map]
      congr 1

theorem length_cells_eq_count (r : Raster) (hrect : Rectangular r.grid) (v : Int) :
    (cells r v).length = (valsOf r).count v := by
  have hmap : (posList r.grid.length (gridW r)).map (pix r.grid) = r.grid.flatten :=
    map_pix_posList r.grid (gridW r) hrect
  have h1 : (cells r v).length =
      (r.grid.flatten).countP (fun x => validVal r.nodata x && (x == v)) := by
    rw [cells, ← List.countP_eq_length_filter, ← hmap, List.countP_map]
    rfl
  have h2 : (valsOf r).count v =
      (r.grid.flatten).countP (fun x => (x == v) && validVal r.nodata x) := by
    rw [valsOf, List.count, List.countP_filter]
  rw [h1, h2]
  exact congrArg (fun p => List.countP p r.grid.flatten)
    (funext fun x => Bool.and_comm _ _)

theorem sum_counts_eq_validCount (r : Raster) :
    (((valsOf r).dedup).map fun v => (valsOf r).count v).sum = validCount r :=
  List.sum_map_count_dedup_eq_length (valsOf r)

theorem classesOf_perm_dedup (r : Raster) :
    List.Perm (classesOf r) (valsOf r).dedup :=
  List.perm_insertionSort _ _

theorem nodup_classesOf (r : Raster) : (classesOf r).Nodup :=
  ((classesOf_perm_dedup r).nodup_iff).mpr (valsOf r).nodup_dedup

theorem sorted_classesOf (r : Raster) : (classesOf r).Sorted (· < ·) :=
  (List.sorted_insertionSort _ _).lt_of_le (nodup_classesOf r)

theorem mem_classesOf (r : Raster) (v : Int) : v ∈ classesOf r ↔ v ∈ valsOf r := by
  rw [classesOf, List.mem_insertionSort, List.mem_dedup]

theorem sum_map_classesOf {M : Type} [AddCommMonoid M] (r : Raster) (f : Int → M) :
    ((classesOf r).map f).sum = (((valsOf r).dedup).map f).sum :=
  ((classesOf_perm_dedup r).map f).sum_eq

theorem sum_map_mul_const (l : List Int) (f : Int → ℚ) (c : ℚ) :
    (l.map fun v => f v * c).sum = (l.map f).sum * c := by
  induction l with
  | nil => simp
  | cons hd tl ih => simp [ih, add_mul]

theorem sum_map_natCast (l : List Int) (f : Int → ℕ) :
    (l.map fun v => ((f v : ℕ) : ℚ)).sum = (((l.map f).sum : ℕ) : ℚ) := by
  induction l with
  | nil => simp
  | cons hd tl ih => simp [ih]

/-! Isolated cells: a mask with no adjacent pair of cells has one component
per cell. -/

theorem no_adj_walk_eq {V : Type} {G : SimpleGraph V} (h : ∀ u v : V, ¬G.Adj u v)
    {u v : V} (w : G.Walk u v) : u = v := by
  cases w with
  | nil => rfl
  | cons hadj _ => exact absurd hadj (h _ _)

theorem npSpec_of_no_adj (cl : List Pos)
    (hp : cl.Pairwise (fun p q => adj8 p q = false)) : npSpec cl = cl.length := by
  classical
  have hget : ∀ (i : ℕ) (hi : i < cl.length), cl.getD i (0, 0) = cl[i] :=
    fun i hi => List.getD_eq_getElem cl (0, 0) hi
  have hnoadj : ∀ u v : Fin cl.length, ¬(maskGraph cl).Adj u v := by
    intro u v hadj
    have hadj' : adj8 (cl.getD u.val (0, 0)) (cl.getD v.val (0, 0)) = true := hadj.2.1
    rw [hget u.val u.isLt, hget v.val v.isLt] at hadj'
    rcases lt_trichotomy u.val v.val with h | h | h
    · have hfalse := List.pairwise_iff_getElem.mp hp u.val v.val u.isLt v.isLt h
      rw [hfalse] at hadj'
      exact Bool.false_ne_true hadj'
    · have huv : u = v := Fin.ext h
      subst huv
      rw [adj8_irrefl] at hadj'
      exact Bool.false_ne_true hadj'
    · have hfalse := List.pairwise_iff_getElem.mp hp v.val u.val v.isLt u.isLt h
      rw [adj8_symm, hfalse] at hadj'
      exact Bool.false_ne_true hadj'
  have hbij : Function.Bijective (maskGraph cl).connectedComponentMk := by
    constructor
    · intro a b hab
      exact (SimpleGraph.ConnectedComponent.exact hab).elim
        (fun w => no_adj_walk_eq hnoadj w)
    · exact fun c => Quot.exists_rep c
  have hcard := Nat.card_eq_of_bijective _ hbij
  rw [npSpec, ← hcard, Nat.card_eq_fintype_card, Fintype.card_fin]

theorem countComps_pos (cl : List Pos) (h : 0 < cl.length) : 0 < countComps cl := by
  have hlen : (propagate (cellAdj cl) cl.length).length = cl.length :=
    length_iter (cellAdj cl) cl.length cl.length
  have hne : propagate (cellAdj cl) cl.length ≠ [] := by
    intro hnil
    rw [hnil] at hlen
    simp at hlen
    omega
  have hdne : (propagate (cellAdj cl) cl.length).dedup ≠ [] := by
    intro hnil
    exact hne ((List.dedup_eq_nil _).mp hnil)
  exact List.length_pos.mpr hdne

/-! Basic facts about the output rows. -/

theorem mkRow_cls (r : Raster) (v : Int) : (mkRow r v).cls = v := rfl

theorem map_cls_rowsOf (r : Raster) :
    (rowsOf r).map ClassMetricRow.cls = classesOf r := by
  rw [rowsOf, List.map_map]
  exact List.map_id _

theorem length_rowsOf (r : Raster) : (rowsOf r).length = (classesOf r).length :=
  List.length_map _ _

theorem calculate_local_metrics_of_wellformed (r : Raster) (h : Wellformed r) :
    calculate_local_metrics r =
      .ok { rows := rowsOf r, richness := (classesOf r).length } := by
  rw [calculate_local_metrics, if_pos h]

theorem localShdi_of_wellformed (r : Raster) (h : Wellformed r) :
    localShdi r = shdiOfRows (rowsOf r) := by
  rw [localShdi, calculate_local_metrics_of_wellformed r h]

/-! Rounding error bounds. -/

theorem abs_round4_sub_le (q : ℚ) : |round4 q - q| ≤ 1 / 20000 := by
  have h : round4 q - q = ((round (q * 10000) : ℚ) - q * 10000) / 10000 := by
    rw [round4]
    ring
  have h2 : |((round (q * 10000) : ℤ) : ℚ) - q * 10000| ≤ 1 / 2 := by
    have h3 := abs_sub_round (q * 10000)
    rwa [abs_sub_comm] at h3
  rw [h, abs_div, abs_of_pos (by norm_num : (0 : ℚ) < 10000)]
  linarith

theorem sum_round4_err (l : List ℚ) :
    |(l.map round4).sum - l.sum| ≤ (l.length : ℚ) * (1 / 20000) := by
  induction l with
  | nil => simp
  | cons hd tl ih =>
    simp only [List.map_cons, List.sum_cons, List.length_cons]
    have h1 := abs_round4_sub_le hd
    have h2 : round4 hd + (tl.map round4).sum - (hd + tl.sum) =
        (round4 hd - hd) + ((tl.map round4).sum - tl.sum) := by ring
    rw [h2]
    calc |(round4 hd - hd) + ((tl.map round4).sum - tl.sum)|
        ≤ |round4 hd - hd| + |(tl.map round4).sum - tl.sum| := abs_add _ _
      _ ≤ 1 / 20000 + (tl.length : ℚ) * (1 / 20000) := add_le_add h1 ih
      _ = ((tl.length + 1 : ℕ) : ℚ) * (1 / 20000) := by push_cast; ring

/-! Exact (unrounded) conservation of area and of landscape percentage. -/

theorem sum_caE (r : Raster) (hrect : Rectangular r.grid) :
    ((classesOf r).map fun v => ((cells r v).length : ℚ) * pixelAreaHa r).sum
      = totalAreaHa r := by
  have h1 : ((classesOf r).map fun v => ((cells r v).length : ℚ) * pixelAreaHa r)
      = (classesOf r).map fun v => (((valsOf r).count v : ℕ) : ℚ) * pixelAreaHa r := by
    apply List.map_congr_left
    intro v _
    rw [length_cells_eq_count r hrect v]
  rw [h1,
    sum_map_classesOf r (fun v => (((valsOf r).count v : ℕ) : ℚ) * pixelAreaHa r),
    sum_map_mul_const, sum_map_natCast, sum_counts_eq_validCount]
  rfl

theorem pixelAreaHa_pos (r : Raster) (hres : 0 < r.res) : 0 < pixelAreaHa r := by
  rw [pixelAreaHa]
  have h := mul_pos hres hres
  positivity

theorem totalAreaHa_ne_zero (r : Raster) (hres : 0 < r.res)
    (hvc : 0 < validCount r) : totalAreaHa r ≠ 0 := by
  rw [totalAreaHa]
  have h1 : (0 : ℚ) < (validCount r : ℚ) := by exact_mod_cast hvc
  have h2 := pixelAreaHa_pos r hres
  positivity

theorem sum_plandE (r : Raster) (hrect : Rectangular r.grid) (hres : 0 < r.res)
    (hvc : 0 < validCount r) :
    ((classesOf r).map fun v =>
      100 * (((cells r v).length : ℚ) * pixelAreaHa r) / totalAreaHa r).sum = 100 := by
  have htot := totalAreaHa_ne_zero r hres hvc
  have h1 : ((classesOf r).map fun v =>
      100 * (((cells r v).length : ℚ) * pixelAreaHa r) / totalAreaHa r)
      = (classesOf r).map fun v =>
        (((cells r v).length : ℚ) * pixelAreaHa r) * (100 / totalAreaHa r) := by
    apply List.map_congr_left
    intro v _
    field_simp
    ring
  rw [h1, sum_map_mul_const, sum_caE r hrect]
  field_simp

unseal Rat.mul Rat.add Rat.inv Rat.sub

/-! Claim theorems for the local raster metrics engine. -/

/-- Claim C1: for every wellformed raster the engine succeeds and returns one
row per distinct valid class, sorted strictly ascending by class id, whose
fields are the class area, landscape percentage, patch count (the number of
8-connected components of the class mask), mean patch area, approximate edge
length and edge density, together with the landscape richness and the Shannon
diversity, all computed from the grid alone. -/
theorem c1_local_engine (r : Raster) (h : Wellformed r) :
    ∃ res : MetricsResult,
      calculate_local_metrics r = .ok res ∧
      (res.rows.map ClassMetricRow.cls).Sorted (· < ·) ∧
      (∀ v : Int, v ∈ res.rows.map ClassMetricRow.cls ↔ v ∈ valsOf r) ∧
      (∀ row ∈ res.rows,
        row.ca = round4 (((cells r row.cls).length : ℚ) * pixelAreaHa r) ∧
        row.pland = round4 (100 * (((cells r row.cls).length : ℚ) * pixelAreaHa r) /
          totalAreaHa r) ∧
        row.np = npSpec (cells r row.cls) ∧
        row.area_mn = round4 ((((cells r row.cls).length : ℚ) * pixelAreaHa r) /
          (row.np : ℚ)) ∧
        row.te = round4 ((boundaryCount r row.cls : ℚ) * r.res) ∧
        row.ed = round4 (((boundaryCount r row.cls : ℚ) * r.res) / totalAreaHa r)) ∧
      res.richness = res.rows.length ∧
      localShdi r = shdiOfRows res.rows := by
  refine ⟨{ rows := rowsOf r, richness := (classesOf r).length },
    calculate_local_metrics_of_wellformed r h, ?_, ?_, ?_, ?_, ?_⟩
  · rw [map_cls_rowsOf]
    exact sorted_classesOf r
  · intro v
    rw [map_cls_rowsOf]
    exact mem_classesOf r v
  · intro row hrow
    obtain ⟨v, hv, rfl⟩ := List.mem_map.mp hrow
    exact ⟨rfl, rfl, countComps_eq_npSpec (cells r v), rfl, rfl, rfl⟩
  · exact (length_rowsOf r).symm
  · exact localShdi_of_wellformed r h

theorem c1_local_engine_witness :
    ∃ res : MetricsResult, calculate_local_metrics diagRaster = .ok res := by
  obtain ⟨res, hok, _⟩ := c1_local_engine diagRaster (by decide)
  exact ⟨res, hok⟩

/-- Claim C2: a wellformed raster with zero valid pixels (empty or
all-nodata) yields an empty class table and richness 0, with no error. -/
theorem c2_empty_raster (r : Raster) (h : Wellformed r) (h0 : validCount r = 0) :
    calculate_local_metrics r = .ok { rows := [], richness := 0 } := by
  have hvals : valsOf r = [] := List.length_eq_zero.mp h0
  have hcls : classesOf r = [] := by
    rw [classesOf, hvals]
    rfl
  rw [calculate_local_metrics_of_wellformed r h]
  simp [rowsOf, hcls]

theorem c2_empty_raster_witness :
    calculate_local_metrics ⟨[[5]], 1, some 5⟩ = .ok { rows := [], richness := 0 } :=
  c2_empty_raster ⟨[[5]], 1, some 5⟩ (by decide) (by decide)

/-- Claim C3 fails as stated: on `halfResRaster` (one isolated single-pixel
region of class 1, `res = 1/2`), the engine's mean patch area is 0 after
rounding to 4 decimals, while the pixel area is 1/40000 ha, so `area_mn` does
not equal the pixel area. -/
theorem c3_counterexample :
    (cells halfResRaster 1).length = 1 ∧
    (cells halfResRaster 1).Pairwise (fun p q => adj8 p q = false) ∧
    npOf halfResRaster 1 = 1 ∧
    (rowsOf halfResRaster).map ClassMetricRow.area_mn = [0] ∧
    pixelAreaHa halfResRaster = 1 / 40000 ∧
    ¬ (rowsOf halfResRaster).map ClassMetricRow.area_mn =
        [pixelAreaHa halfResRaster] := by
  decide

/-- Claim C3 (amended): the engine's patch count always equals the number of
8-connected components of the class mask; diagonally-touching same-class
pixels form one patch (`diagRaster`); and for `k` mutually non-adjacent
single-pixel regions of one class, `NP = k` and the mean patch area is the
pixel area rounded to 4 decimal places. -/
theorem c3_patch_count :
    (∀ (r : Raster) (v : Int), npOf r v = npSpec (cells r v)) ∧
    (rowsOf diagRaster).map (fun row => (row.cls, row.np)) = [(1, 1)] ∧
    (∀ (r : Raster) (v : Int) (k : ℕ), Wellformed r →
      (cells r v).length = k → 0 < k →
      (cells r v).Pairwise (fun p q => adj8 p q = false) →
      npOf r v = k ∧ ∃ row ∈ rowsOf r, row.cls = v ∧ row.np = k ∧
        row.area_mn = round4 (pixelAreaHa r)) := by
  refine ⟨fun r v => countComps_eq_npSpec (cells r v), by decide, ?_⟩
  intro r v k hw hlen hpos hpair
  have hnp : npOf r v = k := by
    rw [npOf, countComps_eq_npSpec, npSpec_of_no_adj (cells r v) hpair, hlen]
  have hvmem : v ∈ classesOf r := by
    rw [mem_classesOf]
    have hcount : 0 < (valsOf r).count v := by
      rw [← length_cells_eq_count r hw.1 v, hlen]
      exact hpos
    exact List.count_pos_iff.mp hcount
  refine ⟨hnp, mkRow r v, List.mem_map_of_mem _ hvmem, rfl, hnp, ?_⟩
  have hk : ((k : ℚ)) ≠ 0 := by
    exact_mod_cast Nat.pos_iff_ne_zero.mp hpos
  have harea : (mkRow r v).area_mn =
      round4 ((((cells r v).length : ℚ) * pixelAreaHa r) / ((npOf r v : ℕ) : ℚ)) := rfl
  rw [harea, hlen, hnp, mul_comm, mul_div_assoc, div_self hk, mul_one]

theorem c3_patch_count_witness :
    npOf diagRaster 1 = npSpec (cells diagRaster 1) ∧
    (npOf halfResRaster 1 = 1 ∧ ∃ row ∈ rowsOf halfResRaster, row.cls = 1 ∧
      row.np = 1 ∧ row.area_mn = round4 (pixelAreaHa halfResRaster)) :=
  ⟨c3_patch_count.1 diagRaster 1,
   c3_patch_count.2.2 halfResRaster 1 1 (by decide) (by decide) (by decide) (by decide)⟩

/-- Claim C4 fails as stated: on the spec's 4×4 grid with `res = 100` and no
nodata, class 0 covers eight pixels, so its area is 8 ha (not 4), its
landscape percentage is 50 (not 33.3333), and the total area is 16 ha
(not 12). -/
theorem c4_counterexample :
    totalAreaHa sampleGrid4 = 16 ∧ ¬ totalAreaHa sampleGrid4 = 12 ∧
    (rowsOf sampleGrid4).map (fun row => (row.cls, row.ca, row.pland)) =
      [(0, 8, 50), (1, 4, 25), (2, 4, 25)] ∧
    ¬ (∀ row ∈ rowsOf sampleGrid4, row.ca = 4 ∧ row.pland = 333333 / 10000) := by
  decide

/-- Claim C4 (amended): on the 4×4 grid `[[1,1,0,0],[1,1,0,0],[2,2,0,0],
[2,2,0,0]]` with res 100 and no nodata, the engine outputs exactly the
classes 0, 1, 2 with class areas 8, 4, 4 ha, landscape percentages 50, 25,
25, one patch each, mean patch areas 8, 4, 4 ha, and total landscape area
16 ha. -/
theorem c4_concrete_scenario :
    calculate_local_metrics sampleGrid4 =
      .ok { rows := rowsOf sampleGrid4, richness := 3 } ∧
    (rowsOf sampleGrid4).map
        (fun row => (row.cls, row.ca, row.pland, row.np, row.area_mn)) =
      [(0, 8, 50, 1, 8), (1, 4, 25, 1, 4), (2, 4, 25, 1, 4)] ∧
    totalAreaHa sampleGrid4 = 16 := by
  refine ⟨?_, by decide, by decide⟩
  rw [calculate_local_metrics_of_wellformed sampleGrid4 (by decide)]
  have h3 : (classesOf sampleGrid4).length = 3 := by decide
  rw [h3]

/-- Claim C5 fails as stated: on `halfResRaster` the rounded class areas sum
to 0 while the total valid area is 1/40000 ha, a gap of 2.5e-5 ha, exceeding
the claimed 1e-6 ha tolerance. -/
theorem c5_counterexample :
    ((rowsOf halfResRaster).map ClassMetricRow.ca).sum = 0 ∧
    totalAreaHa halfResRaster = 1 / 40000 ∧
    ¬ |((rowsOf halfResRaster).map ClassMetricRow.ca).sum -
        totalAreaHa halfResRaster| ≤ 1 / 1000000 := by
  decide

/-- Claim C5 (amended): for every wellformed raster the rounded class areas
sum to the total valid area up to the rounding slack of 1/20000 ha per class,
and (when there is a valid pixel) the rounded landscape percentages sum to
100 up to 1/20000 percent per class; the unrounded sums are exact. -/
theorem c5_conservation (r : Raster) (h : Wellformed r) :
    |((rowsOf r).map ClassMetricRow.ca).sum - totalAreaHa r|
        ≤ ((rowsOf r).length : ℚ) * (1 / 20000) ∧
    (0 < validCount r →
      |((rowsOf r).map ClassMetricRow.pland).sum - 100|
        ≤ ((rowsOf r).length : ℚ) * (1 / 20000)) := by
  have hformCa : (rowsOf r).map ClassMetricRow.ca =
      ((classesOf r).map fun v => ((cells r v).length : ℚ) * pixelAreaHa r).map
        round4 := by
    rw [rowsOf, List.map_map, List.map_map]
    rfl
  constructor
  · rw [hformCa]
    have herr := sum_round4_err
      ((classesOf r).map fun v => ((cells r v).length : ℚ) * pixelAreaHa r)
    rw [sum_caE r h.1] at herr
    simpa [length_rowsOf, List.length_map] using herr
  · intro hvc
    have hformPl : (rowsOf r).map ClassMetricRow.pland =
        ((classesOf r).map fun v =>
          100 * (((cells r v).length : ℚ) * pixelAreaHa r) / totalAreaHa r).map
            round4 := by
      rw [rowsOf, List.map_map, List.map_map]
      rfl
    rw [hformPl]
    have herr := sum_round4_err ((classesOf r).map fun v =>
      100 * (((cells r v).length : ℚ) * pixelAreaHa r) / totalAreaHa r)
    rw [sum_plandE r h.1 h.2 hvc] at herr
    simpa [length_rowsOf, List.length_map] using herr

theorem c5_conservation_witness :
    |((rowsOf ⟨[[1, 2], [3, 4]], 10, none⟩).map ClassMetricRow.ca).sum -
        totalAreaHa ⟨[[1, 2], [3, 4]], 10, none⟩|
      ≤ ((rowsOf ⟨[[1, 2], [3, 4]], 10, none⟩).length : ℚ) * (1 / 20000) :=
  (c5_conservation ⟨[[1, 2], [3, 4]], 10, none⟩ (by decide)).1

/-- Claim C6: when exactly one class covers all valid pixels, its landscape
percentage is 100, its patch count is at least 1, and the Shannon diversity
index is 0. -/
theorem c6_single_class (r : Raster) (v : Int) (h : Wellformed r)
    (hone : classesOf r = [v]) :
    rowsOf r = [mkRow r v] ∧ (mkRow r v).pland = 100 ∧
      1 ≤ (mkRow r v).np ∧ localShdi r = 0 := by
  have hrows : rowsOf r = [mkRow r v] := by
    rw [rowsOf, hone]
    rfl
  have hv : v ∈ valsOf r := by
    rw [← mem_classesOf, hone]
    exact List.mem_singleton_self v
  have hall : ∀ b ∈ valsOf r, v = b := by
    intro b hb
    have : b ∈ classesOf r := (mem_classesOf r b).mpr hb
    rw [hone] at this
    exact (List.mem_singleton.mp this).symm
  have hcount : (valsOf r).count v = validCount r := List.count_eq_length.mpr hall
  have hcells : (cells r v).length = validCount r := by
    rw [length_cells_eq_count r h.1 v, hcount]
  have hvc : 0 < validCount r := List.length_pos.mpr (List.ne_nil_of_mem hv)
  have htot := totalAreaHa_ne_zero r h.2 hvc
  have hfrac : 100 * (((cells r v).length : ℚ) * pixelAreaHa r) / totalAreaHa r
      = 100 := by
    rw [hcells]
    have : ((validCount r : ℕ) : ℚ) * pixelAreaHa r = totalAreaHa r := rfl
    rw [this, mul_div_assoc, div_self htot, mul_one]
  have hpland : (mkRow r v).pland = 100 := by
    have hdef : (mkRow r v).pland =
        round4 (100 * (((cells r v).length : ℚ) * pixelAreaHa r) /
          totalAreaHa r) := rfl
    rw [hdef, hfrac]
    decide
  refine ⟨hrows, hpland, ?_, ?_⟩
  · have : 0 < npOf r v := countComps_pos (cells r v) (hcells ▸ hvc)
    exact this
  · rw [localShdi_of_wellformed r h, hrows, shdiOfRows]
    simp [hpland]

theorem c6_single_class_witness :
    localShdi ⟨[[3, 3], [3, 3]], 10, none⟩ = 0 :=
  (c6_single_class ⟨[[3, 3], [3, 3]], 10, none⟩ 3 (by decide) (by decide)).2.2.2

/-- Claim C7: malformed input — a non-rectangular (non-2-D) grid or a
non-positive resolution — makes the engine fail up front with the invalid
input error, and every other input succeeds; the error is returned to the
caller unchanged. -/
theorem c7_invalid_input (r : Raster) :
    (¬ Rectangular r.grid ∨ r.res ≤ 0 →
      calculate_local_metrics r = .error invalidInputMsg) ∧
    (Rectangular r.grid ∧ 0 < r.res →
      calculate_local_metrics r =
        .ok { rows := rowsOf r, richness := (classesOf r).length }) := by
  constructor
  · intro hbad
    have hnw : ¬ Wellformed r := by
      intro hw
      rcases hbad with h | h
      · exact h hw.1
      · exact absurd hw.2 (not_lt.mpr h)
    rw [calculate_local_metrics, if_neg hnw]
  · intro hgood
    exact calculate_local_metrics_of_wellformed r hgood

theorem c7_invalid_input_witness :
    calculate_local_metrics ⟨[[1], [2, 3]], 1, none⟩ = .error invalidInputMsg :=
  (c7_invalid_input ⟨[[1], [2, 3]], 1, none⟩).1 (Or.inl (by decide))

/-- Claim C8: the engine is deterministic and stateless — its output (both
the table and the Shannon index) is a function of the grid, the resolution
and the nodata value alone. -/
theorem c8_deterministic (r₁ r₂ : Raster) (hg : r₁.grid = r₂.grid)
    (hres : r₁.res = r₂.res) (hnd : r₁.nodata = r₂.nodata) :
    calculate_local_metrics r₁ = calculate_local_metrics r₂ ∧
      localShdi r₁ = localShdi r₂ := by
  have heq : r₁ = r₂ := by
    cases r₁
    cases r₂
    simp_all
  rw [heq]
  exact ⟨rfl, rfl⟩

theorem c8_deterministic_witness :
    calculate_local_metrics ⟨[[1]], 1, none⟩ =
      calculate_local_metrics ⟨[[1]], 1, none⟩ :=
  (c8_deterministic ⟨[[1]], 1, none⟩ ⟨[[1]], 1, none⟩ rfl rfl rfl).1

end GeeAdvance

namespace Cloud

/-- Claim C9: the cloud-side metric functions are placeholders — for every
input `diversity_metrics` returns the seven diversity keys all mapped to
`None`, and `area_metrics` maps CA, PLAND and NP to `None`. -/
theorem c9_placeholders :
    (∀ (image : EEImage) (region : EEGeometry) (scale : ℤ),
      (diversity_metrics image region scale).map Prod.fst =
        ["SHDI", "SHEI", "SIDI", "SIEI", "MSIDI", "PR", "PRD"] ∧
      (diversity_metrics image region scale).map Prod.snd =
        [none, none, none, none, none, none, none]) ∧
    (∀ (getInfo : EENumber → ℚ) (image : EEImage) (region : EEGeometry)
        (scale : ℤ),
      ((area_metrics getInfo image region scale).filter
          (fun kv => kv.1 == "CA" || kv.1 == "PLAND" || kv.1 == "NP")).map
        Prod.snd = [none, none, none]) :=
  ⟨fun _ _ _ => ⟨rfl, rfl⟩, fun _ _ _ _ => rfl⟩

/-- Claim C10: `create_composite` succeeds exactly on the five methods
median, mean, max, min, mosaic — returning the corresponding reduction,
clipped when a region is given — and raises the ValueError message on any
other method. -/
theorem c10_create_composite (collection : ImageCollection) (method : String)
    (region : Option EEGeometry) :
    ((∃ img, create_composite collection method region = .ok img) ↔
      method ∈ compositeMethods) ∧
    (method ∉ compositeMethods →
      create_composite collection method region =
        .error ("Unknown method '" ++ method ++
          "'. Available: median, mean, max, min, mosaic")) ∧
    create_composite collection "median" region =
      .ok (applyClip region (.median collection)) ∧
    create_composite collection "mean" region =
      .ok (applyClip region (.mean collection)) ∧
    create_composite collection "max" region =
      .ok (applyClip region (.maxOf collection)) ∧
    create_composite collection "min" region =
      .ok (applyClip region (.minOf collection)) ∧
    create_composite collection "mosaic" region =
      .ok (applyClip region (.mosaic collection)) := by
  by_cases h1 : method = "median" <;>
    by_cases h2 : method = "mean" <;>
      by_cases h3 : method = "max" <;>
        by_cases h4 : method = "min" <;>
          by_cases h5 : method = "mosaic" <;>
    simp_all [create_composite, compositeMethods]

theorem c10_create_composite_witness :
    create_composite ⟨0⟩ "blah" none =
      .error "Unknown method 'blah'. Available: median, mean, max, min, mosaic" :=
  (c10_create_composite ⟨0⟩ "blah" none).2.1 (by decide)

end Cloud
